import Mathlib

/-!
Verification development for the aider coder pipeline.

This file gives a shallow embedding, in Lean 4, of the control and
data-extraction logic of the repository:

* the whole-file edit extraction engine (`WholeFileCoder.get_edits` in
  `aider/coders/wholefile_coder.py`), including its filename-resolution
  precedence, backtick-mention tracking, and confidence-ordered
  deduplication;
* the edit gate and application (`Coder.prepare_to_edit`,
  `Coder.update_files`, `WholeFileCoder.apply_edits`,
  `Coder.apply_updates` in `aider/coders/base_coder.py`);
* fence selection (`Coder.choose_fence`);
* the send retry loop of `Coder.send_new_user_message` (length-limited
  stops, interrupts, context exhaustion);
* the reflection loop of `Coder.run` and `Coder.init_before_message`;
* the post-send lint/test gating of `Coder.send_new_user_message`;
* the double-interrupt handler `Coder.keyboard_interrupt`;
* the confirmation prompt `InputOutput.confirm_ask` (`aider/io.py`).

Python strings are modelled as Lean `String`; the helper functions
`py_strip`, `py_strip_chars`, `py_rstrip_chars`, `py_words`, `py_lower`
mirror Python's `str.strip`, `str.rstrip(chars)`, `str.split()`,
`str.lower` (for the ASCII inputs the program manipulates).  Response
texts are modelled as their list of lines (Python iterates over
`splitlines(keepends=True)`; the trailing newline of each line is
irrelevant to every predicate used, since `startswith` ignores it and
`strip` removes it, so lines are stored without terminators).  The file
system is modelled as a map from paths to file contents (lists of
lines).  Timestamps (`time.time()`) are modelled as rationals.
-/

/-! ## Python-style string primitives -/

/-- Characters treated as whitespace by Python's `str.strip()` / `str.split()`. -/
def is_py_space (c : Char) : Bool :=
  c == ' ' || c == '\t' || c == '\n' || c == '\r' || c == '\x0b' || c == '\x0c'

/-- Drop characters satisfying `p` from both ends of a character list. -/
def strip_both_data (p : Char → Bool) (l : List Char) : List Char :=
  ((l.dropWhile p).reverse.dropWhile p).reverse

/-- Drop characters satisfying `p` from the right end of a character list. -/
def rstrip_data (p : Char → Bool) (l : List Char) : List Char :=
  (l.reverse.dropWhile p).reverse

/-- Python `s.strip()`. -/
def py_strip (s : String) : String :=
  String.mk (strip_both_data is_py_space s.data)

/-- Python `s.strip(chars)`. -/
def py_strip_chars (chars : String) (s : String) : String :=
  String.mk (strip_both_data (fun c => chars.data.contains c) s.data)

/-- Python `s.rstrip(chars)`. -/
def py_rstrip_chars (chars : String) (s : String) : String :=
  String.mk (rstrip_data (fun c => chars.data.contains c) s.data)

/-- `lead_match n h` holds when the character list `n` is an initial segment of `h`. -/
def lead_match : List Char → List Char → Bool
  | [], _ => true
  | _ :: _, [] => false
  | a :: n, b :: h => a == b && lead_match n h

/-- Python `s.startswith(pre)`. -/
def str_starts (s pre : String) : Bool :=
  lead_match pre.data s.data

/-- `sub_occ n h` holds when `n` occurs as a contiguous segment of `h`. -/
def sub_occ (needle : List Char) : List Char → Bool
  | [] => needle.isEmpty
  | c :: rest => lead_match needle (c :: rest) || sub_occ needle rest

/-- Python `needle in hay` (substring containment). -/
def str_in (needle hay : String) : Bool :=
  sub_occ needle.data hay.data

/-- Split a character list at every character satisfying `p`
(keeping empty chunks, like Python `re`-free splitting). -/
def split_when (p : Char → Bool) : List Char → List (List Char)
  | [] => [[]]
  | c :: rest =>
      if p c then [] :: split_when p rest
      else
        match split_when p rest with
        | [] => [[c]]
        | h :: t => (c :: h) :: t

/-- Python `s.split()`: split on whitespace runs, dropping empty words. -/
def py_words (s : String) : List String :=
  ((split_when is_py_space s.data).filter (fun w => w ≠ [])).map String.mk

/-- Python `pathlib.Path(s).name`: the final path component
(trailing and repeated separators ignored, as `Path` normalizes them). -/
def base_name (s : String) : String :=
  match ((split_when (fun c => c == '/') s.data).filter (fun w => w ≠ [])).getLast? with
  | some l => String.mk l
  | none => ""

/-- Python `s.lower()` (ASCII). -/
def py_lower (s : String) : String :=
  String.mk (s.data.map Char.toLower)

/-! ## Whole-file edit extraction (`WholeFileCoder.get_edits`, update mode)

An edit candidate is a triple `(fname, fname_source, new_lines)`:
the target path, the confidence tag of the filename source
(`"block"` for an explicit header line, `"saw"` for an earlier backtick
mention, `"chat"` for the sole-in-chat-file default), and the block's
content lines. -/

abbrev Edit := String × String × List String

/-- Target path of an edit candidate. -/
def epath (e : Edit) : String := e.1

/-- Filename-source confidence tag of an edit candidate. -/
def esrc (e : Edit) : String := e.2.1

/-- Content lines of an edit candidate. -/
def elines (e : Edit) : List String := e.2.2

/-- The strip pipeline applied to the line preceding a fence opening:
`lines[i-1].strip().strip("*").rstrip(":").strip("`")`. -/
def header_raw (s : String) : String :=
  py_strip_chars "`" (py_rstrip_chars ":" (py_strip_chars "*" (py_strip s)))

/-- The header-derived filename, with the bogus-directory correction:
if the stripped name is not an in-chat file but its basename is,
the basename replaces it. -/
def header_name (chat_files : List String) (s : String) : String :=
  let f := header_raw s
  if f ≠ "" ∧ f ∉ chat_files ∧ base_name f ∈ chat_files then base_name f else f

/-- Filename resolution at a fence-opening line, mirroring the branch of
`get_edits` that runs when a fence is hit with no block being tracked:
header line first (when a preceding line exists, i.e. `i > 0`), then the
remembered backtick mention (`saw_fname`), then the sole-in-chat-file
default, otherwise the `ValueError` diagnostic.  Returns the filename
together with its `fname_source` tag. -/
def resolve_fname (fence_open : String) (chat_files : List String)
    (saw : Option String) (prev : Option String) : Except String (String × String) :=
  let f : String :=
    match prev with
    | some p => header_name chat_files p
    | none => ""
  if f ≠ "" then .ok (f, "block")
  else
    match saw with
    | some s => .ok (s, "saw")
    | none =>
        if chat_files.length = 1 then .ok (chat_files.headD "", "chat")
        else .error ("No filename provided before " ++ fence_open ++ " in file listing")

/-- The in-chat file mentioned by one word of a conversational line:
the word must equal the filename wrapped in backticks
(`word == f"`{chat_file}`"`; the last matching `chat_file` wins,
as later iterations of the inner loop overwrite `saw_fname`). -/
def word_mention (chat_files : List String) (w : String) : Option String :=
  (chat_files.filter (fun cf => w == "`" ++ cf ++ "`")).getLast?

/-- The in-chat file remembered from a conversational line:
words are produced by `line.strip().split()` and trimmed with
`word.rstrip(".:,;!")`; the last matching word wins. -/
def last_mention (chat_files : List String) (line : String) : Option String :=
  ((py_words (py_strip line)).filterMap
    (fun w => word_mention chat_files (py_rstrip_chars ".:,;!" w))).getLast?

/-- Whether a line opens or closes a fenced block:
`line.startswith(self.fence[0]) or line.startswith(self.fence[1])`. -/
def is_fence_line (fence : String × String) (line : String) : Bool :=
  str_starts line fence.1 || str_starts line fence.2

/-- The loop state of the `get_edits` line scan. -/
structure ScanState where
  saw_fname : Option String
  fname : Option String
  fname_source : Option String
  new_lines : List String
  edits : List Edit
  output : List String
deriving DecidableEq

/-- Initial scan state (all trackers empty). -/
def init_scan : ScanState := ⟨none, none, none, [], [], []⟩

/-- One iteration of the `get_edits` scan over `(line, lines[i-1])`,
in update mode.  A fence line either closes the tracked block (emitting
its edit and forgetting the remembered mention) or opens a new one via
`resolve_fname`; a non-fence line is either block content or a
conversational line scanned for backtick mentions. -/
def scan_line (fence : String × String) (chat_files : List String)
    (st : ScanState) (prev : Option String) (line : String) : Except String ScanState :=
  if is_fence_line fence line then
    match st.fname with
    | some f =>
        .ok { st with
              saw_fname := none
              edits := st.edits ++ [(f, st.fname_source.getD "", st.new_lines)]
              fname := none
              fname_source := none
              new_lines := [] }
    | none =>
        match resolve_fname fence.1 chat_files st.saw_fname prev with
        | .ok fs => .ok { st with fname := some fs.1, fname_source := some fs.2 }
        | .error e => .error e
  else
    match st.fname with
    | some _ => .ok { st with new_lines := st.new_lines ++ [line] }
    | none =>
        .ok { st with
              saw_fname :=
                match last_mention chat_files line with
                | some m => some m
                | none => st.saw_fname
              output := st.output ++ [line] }

/-- The full `get_edits` scan (`prev` is the previous raw line, `lines[i-1]`). -/
def scan_lines (fence : String × String) (chat_files : List String) :
    List String → Option String → ScanState → Except String ScanState
  | [], _, st => .ok st
  | line :: rest, prev, st =>
      match scan_line fence chat_files st prev line with
      | .ok st2 => scan_lines fence chat_files rest (some line) st2
      | .error e => .error e

/-- Confidence rank of a filename source, in the deduplication order
`("block", "saw", "chat")` (lower is higher confidence). -/
def src_rank (s : String) : Nat :=
  if s = "block" then 0 else if s = "saw" then 1 else 2

/-- One pass of the deduplication loop of `get_edits` for a fixed
source tag: keep every edit with that tag whose path is not yet in
`seen`, adding kept paths to `seen`. -/
def refine_pass (src : String) : List Edit → List String → List Edit × List String
  | [], seen => ([], seen)
  | e :: rest, seen =>
      if esrc e = src ∧ epath e ∉ seen then
        let r := refine_pass src rest (seen ++ [epath e])
        (e :: r.1, r.2)
      else
        refine_pass src rest seen

/-- The deduplication stage of `get_edits`: three passes over the
candidate list, in the fixed order `("block", "saw", "chat")`, sharing
one `seen` set, concatenating the kept edits of each pass. -/
def refine_edits (edits : List Edit) : List Edit :=
  let b := refine_pass "block" edits []
  let s := refine_pass "saw" edits b.2
  let c := refine_pass "chat" edits s.2
  b.1 ++ s.1 ++ c.1

/-- `WholeFileCoder.get_edits` in update mode: scan the response lines,
close a trailing unterminated block whose tracked filename is truthy
(`if fname:`), then deduplicate by confidence. -/
def get_edits (fence : String × String) (chat_files : List String)
    (lines : List String) : Except String (List Edit) :=
  match scan_lines fence chat_files lines none init_scan with
  | .error e => .error e
  | .ok st =>
      let edits :=
        match st.fname with
        | some f =>
            if f ≠ "" then st.edits ++ [(f, st.fname_source.getD "", st.new_lines)]
            else st.edits
        | none => st.edits
      .ok (refine_edits edits)

/-! ## Edit gate and application (`prepare_to_edit`, `update_files`, `apply_edits`)

The gate decision (`Coder.allowed_to_edit`) is an interactive
permission check; it is modelled as a function `approval : String → Bool`
giving the user's (deterministic, per-path) answer.  The file system is
a map from absolute-ized paths to file contents. -/

abbrev FS := String → Option (List String)

/-- `InputOutput.write_text`: (over)write one file. -/
def write_text (fs : FS) (p : String) (content : List String) : FS :=
  fun q => if q = p then some content else fs q

/-- `WholeFileCoder.apply_edits`: write each edit's content to its path, in order. -/
def apply_edits (fs : FS) (edits : List Edit) : FS :=
  edits.foldl (fun acc e => write_text acc (epath e) (elines e)) fs

/-- Lookup in the `seen` cache of `prepare_to_edit`. -/
def prep_lookup (cache : List (String × Bool)) (p : String) : Option Bool :=
  (cache.find? (fun q => q.1 == p)).map (fun q => q.2)

/-- The loop of `Coder.prepare_to_edit`: ask the gate once per distinct
path (caching the answer in `seen`), keep exactly the allowed edits. -/
def prepare_to_edit_go (approval : String → Bool) : List Edit → List (String × Bool) → List Edit
  | [], _ => []
  | e :: rest, cache =>
      match prep_lookup cache (epath e) with
      | some b =>
          if b then e :: prepare_to_edit_go approval rest cache
          else prepare_to_edit_go approval rest cache
      | none =>
          let b := approval (epath e)
          if b then e :: prepare_to_edit_go approval rest ((epath e, b) :: cache)
          else prepare_to_edit_go approval rest ((epath e, b) :: cache)

/-- `Coder.prepare_to_edit` with an empty cache. -/
def prepare_to_edit (approval : String → Bool) (edits : List Edit) : List Edit :=
  prepare_to_edit_go approval edits []

/-- `Coder.update_files`: gate the extracted edits, apply the allowed
ones, return the new file system and the set of edited paths. -/
def update_files (approval : String → Bool) (edits : List Edit) (fs : FS) :
    FS × List String :=
  let kept := prepare_to_edit approval edits
  (apply_edits fs kept, kept.map epath)

/-! ## Fence selection (`Coder.fences`, `Coder.choose_fence`) -/

/-- The fixed ordered candidate list `Coder.fences`. -/
def fences : List (String × String) :=
  [("```", "```"), ("<source>", "</source>"), ("<code>", "</code>"),
   ("<pre>", "</pre>"), ("<codeblock>", "</codeblock>"), ("<sourcecode>", "</sourcecode>")]

/-- The concatenated in-chat file contents scanned by `choose_fence`
(each file's content followed by a newline). -/
def all_content (contents : List String) : String :=
  String.join (contents.map (fun c => c ++ "\n"))

/-- The scan loop of `choose_fence`: first candidate pair neither of
whose delimiters occurs in the scanned content. -/
def find_good_fence (all : String) : List (String × String) → Option (String × String)
  | [] => none
  | f :: rest =>
      if str_in f.1 all || str_in f.2 all then find_good_fence all rest
      else some f

/-- `Coder.choose_fence`: pick the first clean candidate; when none is
clean, fall back to `fences[0]` and emit one `tool_error` warning.  The
second component counts the warnings emitted. -/
def choose_fence (contents : List String) : (String × String) × Nat :=
  match find_good_fence (all_content contents) fences with
  | some f => (f, 0)
  | none => (fences.headD ("", ""), 1)

/-! ## The send retry loop of `Coder.send_new_user_message`

Each attempt of the `while True` loop around `self.send(...)` ends in
one of the distinguishable ways the source catches; a run of the loop
is driven by the list of outcomes of successive attempts. -/

/-- A chat message. -/
structure Msg where
  role : String
  content : String
deriving DecidableEq

/-- Outcome of one `self.send(...)` attempt: clean completion,
`KeyboardInterrupt`, `litellm.ContextWindowExceededError`,
`litellm.exceptions.BadRequestError`, `FinishReasonLength` (carrying
the response text accumulated so far, `get_multi_response_content()`),
or an unexpected exception. -/
inductive SendEvent where
  | ok
  | interrupt
  | contextWindow
  | badRequest (msg : String)
  | lengthStop (acc : String)
  | otherError (msg : String)

/-- Result of the send retry loop. -/
structure SendLoopResult where
  exhausted : Bool
  interrupted : Bool
  aborted : Bool
  messages : List Msg
  attempts : Nat
deriving DecidableEq

/-- The length-stop message surgery: the accumulated text becomes the
content of the trailing assistant message, replacing the last message
when it is already an assistant message and appended otherwise. -/
def prime_assistant (messages : List Msg) (acc : String) : List Msg :=
  match messages.getLast? with
  | some m =>
      if m.role = "assistant" then messages.dropLast ++ [⟨"assistant", acc⟩]
      else messages ++ [⟨"assistant", acc⟩]
  | none => messages ++ [⟨"assistant", acc⟩]

/-- The `while True` send loop: `ok` breaks cleanly; `interrupt` marks
the turn interrupted; `contextWindow` marks it exhausted; `badRequest`
and `otherError` return from the method (aborting the turn); a
`lengthStop` either marks the turn exhausted (when the model cannot be
primed) or reseeds the trailing assistant message and retries. -/
def send_loop (canPrefill : Bool) : List Msg → List SendEvent → SendLoopResult
  | messages, [] => ⟨false, false, true, messages, 0⟩
  | messages, e :: rest =>
      match e with
      | .ok => ⟨false, false, false, messages, 1⟩
      | .interrupt => ⟨false, true, false, messages, 1⟩
      | .contextWindow => ⟨true, false, false, messages, 1⟩
      | .badRequest _ => ⟨false, false, true, messages, 1⟩
      | .otherError _ => ⟨false, false, true, messages, 1⟩
      | .lengthStop acc =>
          if canPrefill then
            let r := send_loop canPrefill (prime_assistant messages acc) rest
            ⟨r.exhausted, r.interrupted, r.aborted, r.messages, r.attempts + 1⟩
          else ⟨true, false, false, messages, 1⟩

/-! ## Reflection loop (`Coder.run`, `Coder.init_before_message`) -/

/-- The per-turn fields reset by `Coder.init_before_message`. -/
structure TurnState where
  reflected_message : Option String
  num_reflections : Nat
  lint_outcome : Option Bool
  test_outcome : Option Bool
  edit_outcome : Option Bool
deriving DecidableEq

/-- `Coder.init_before_message`. -/
def init_before_message (_st : TurnState) : TurnState :=
  { reflected_message := none
    num_reflections := 0
    lint_outcome := none
    test_outcome := none
    edit_outcome := none }

/-- Observable trace of the inner `while new_user_message` loop of
`Coder.run`: the final reflection counter, the counter's value at the
start of each iteration, the reflected messages that were resent, the
`tool_error` diagnostics emitted, and the number of sends performed. -/
structure ReflectLoopResult where
  finalCount : Nat
  countTrace : List Nat
  resent : List String
  errors : List String
  sends : Nat
deriving DecidableEq

/-- The inner loop of `Coder.run`: each iteration sends the pending
user message (send number `k`); `oracle k` is the reflection message
that send leaves in `self.reflected_message` (or `none`).  When a
reflection is pending and `count < maxR`, the counter is incremented
and the reflected message becomes the next user message; when a
reflection is pending at the limit, the loop emits the stopping
diagnostic; with no pending reflection, the loop simply ends. -/
def reflect_loop (maxR : Nat) (oracle : Nat → Option String) (k : Nat) (count : Nat) :
    ReflectLoopResult :=
  match oracle k with
  | none => ⟨count, [count], [], [], 1⟩
  | some m =>
      if count < maxR then
        let r := reflect_loop maxR oracle (k + 1) (count + 1)
        ⟨r.finalCount, count :: r.countTrace, m :: r.resent, r.errors, r.sends + 1⟩
      else
        ⟨count, [count], [],
         ["Only " ++ toString maxR ++ " reflections allowed, stopping."], 1⟩
termination_by maxR - count
decreasing_by omega

/-! ## Interrupt handling (`Coder.keyboard_interrupt`) and the
post-send phase of `Coder.send_new_user_message` -/

/-- `Coder.keyboard_interrupt`: the first component is whether the
process terminates (`sys.exit()`), the second the updated
`last_keyboard_interrupt`.  `last = some 0` is kept falsy to match
Python's truthiness test on the stored float (a real timestamp is
never `0`). -/
def keyboard_interrupt (last : Option ℚ) (now : ℚ) : Bool × Option ℚ :=
  match last with
  | some t => if t ≠ 0 ∧ now - t < 2 then (true, some t) else (false, some now)
  | none => (false, some now)

/-- The testing stage and final file-mention stage of
`send_new_user_message` (everything after the lint block): returns the
reflection payload and `test_outcome`. -/
def test_stage (editedPaths : List String) (autoTest : Bool) (testErrors : Option String)
    (acceptTestFix : Bool) (addFilesMsg : Option String) : Option String × Option Bool :=
  let hasEdits := !editedPaths.isEmpty
  let testOutcome : Option Bool :=
    if hasEdits && autoTest then some testErrors.isNone else none
  if hasEdits && autoTest && testErrors.isSome && acceptTestFix then
    (testErrors, testOutcome)
  else
    (addFilesMsg, testOutcome)

/-- The lint stage of `send_new_user_message` followed by the testing
stage: returns `(reflected, lint_outcome, test_outcome, reachedTest)`
where `reachedTest` records that control flowed past the lint block
into the testing stage (rather than returning with a lint reflection). -/
def lint_test_stage (editedPaths : List String)
    (autoLint : Bool) (lintErrors : Option String) (acceptLintFix : Bool)
    (autoTest : Bool) (testErrors : Option String) (acceptTestFix : Bool)
    (addFilesMsg : Option String) :
    Option String × Option Bool × Option Bool × Bool :=
  let hasEdits := !editedPaths.isEmpty
  let lintOutcome : Option Bool :=
    if hasEdits && autoLint then some lintErrors.isNone else none
  if hasEdits && autoLint && lintErrors.isSome && acceptLintFix then
    (lintErrors, lintOutcome, none, false)
  else
    let t := test_stage editedPaths autoTest testErrors acceptTestFix addFilesMsg
    (t.1, lintOutcome, t.2, true)

/-- Result of the post-send phase of `send_new_user_message`. -/
structure AfterSendResult where
  fs : FS
  edited : Option (List String)
  reflected : Option String
  edit_outcome : Option Bool
  lint_outcome : Option Bool
  test_outcome : Option Bool
  reachedTest : Bool

/-- The post-send phase of `send_new_user_message`: an interrupted turn
returns before any edit extraction or application; otherwise
`apply_updates` runs `get_edits`/`update_files`, a `ValueError` from
the extraction becomes the reflection payload with no file touched, and
an applied edit set flows through the lint and test stages. -/
def after_send (interrupted : Bool) (fence : String × String) (chat_files : List String)
    (approval : String → Bool) (lines : List String)
    (autoLint : Bool) (lintErrors : Option String) (acceptLintFix : Bool)
    (autoTest : Bool) (testErrors : Option String) (acceptTestFix : Bool)
    (addFilesMsg : Option String) (fs : FS) : AfterSendResult :=
  if interrupted then
    ⟨fs, none, none, none, none, none, false⟩
  else
    match get_edits fence chat_files lines with
    | .error e => ⟨fs, none, some e, some false, none, none, false⟩
    | .ok allEdits =>
        let r := update_files approval allEdits fs
        let editOutcome : Option Bool := if r.2.isEmpty then none else some true
        let s := lint_test_stage r.2 autoLint lintErrors acceptLintFix
                   autoTest testErrors acceptTestFix addFilesMsg
        ⟨r.1, some r.2, s.1, editOutcome, s.2.1, s.2.2.1, s.2.2.2⟩

/-! ## The confirmation prompt (`InputOutput.confirm_ask`) -/

/-- `InputOutput.confirm_ask`: `yes` is the auto-answer mode
(`self.yes`), `userAnswer` the string `input()` would produce, `dflt`
the `default` argument.  Returns the answer (`none` for a blank
response, mirroring the bare `return`) and whether the interactive
prompt ran. -/
def confirm_ask (yes : Option Bool) (userAnswer : String) (dflt : String) :
    Option Bool × Bool :=
  let res : String :=
    match yes with
    | some true => "yes"
    | some false => "no"
    | none => userAnswer
  let prompted := yes.isNone
  if res = "" ∨ py_strip res = "" then (none, prompted)
  else (some (str_starts (py_lower (py_strip res)) "y"), prompted)

/-! ## Theorems

Helper lemmas first, then one theorem per claim (with a witness or a
counterexample where required). -/

/-- Claim C10: the `default` argument of `confirm_ask` is never
consulted, so an empty or whitespace-only answer returns `none` (a
refusal) rather than the default yes; auto-yes/auto-no mode forces the
answer to `"yes"`/`"no"` without prompting; and the call returns `true`
exactly when the stripped, lowercased answer starts with `"y"`. -/
theorem confirm_ask_semantics :
    (∀ (yes : Option Bool) (ans d1 d2 : String),
        confirm_ask yes ans d1 = confirm_ask yes ans d2)
    ∧ (∀ (ans d : String), py_strip ans = "" → confirm_ask none ans d = (none, true))
    ∧ (∀ (ans d : String),
        confirm_ask (some true) ans d = (some true, false)
        ∧ confirm_ask (some false) ans d = (some false, false))
    ∧ (∀ (ans d : String), py_strip ans ≠ "" →
        confirm_ask none ans d
          = (some (str_starts (py_lower (py_strip ans)) "y"), true)) := by
  refine ⟨fun yes ans d1 d2 => rfl, fun ans d h => ?_, fun ans d => ⟨rfl, rfl⟩,
    fun ans d h => ?_⟩
  · simp [confirm_ask, h]
  · have h0 : ans ≠ "" := by
      intro he
      subst he
      exact h rfl
    simp [confirm_ask, h, h0]

/-- Witness for C10: a whitespace-only interactive answer yields `none`
(refusal), not the default yes. -/
theorem confirm_ask_semantics_witness :
    py_strip "   " = "" ∧ confirm_ask none "   " "y" = (none, true) :=
  ⟨rfl, confirm_ask_semantics.2.1 "   " "y" rfl⟩

/-- Claim C8: a single interrupt during streaming marks the turn
interrupted and the turn ends with no file edits applied (the
interrupted branch of the post-send phase returns before any
extraction or application), and a second interrupt within 2 seconds of
a recorded first one terminates the whole process, the window being the
hard constant 2. -/
theorem interrupt_semantics :
    (∀ t now : ℚ, t ≠ 0 → now - t < 2 → (keyboard_interrupt (some t) now).1 = true)
    ∧ (∀ now : ℚ, keyboard_interrupt none now = (false, some now))
    ∧ (∀ t now : ℚ, ¬ now - t < 2 → keyboard_interrupt (some t) now = (false, some now))
    ∧ (∀ (fence : String × String) (chat_files : List String)
        (approval : String → Bool) (lines : List String)
        (autoLint : Bool) (lintErrors : Option String) (acceptLintFix : Bool)
        (autoTest : Bool) (testErrors : Option String) (acceptTestFix : Bool)
        (addFilesMsg : Option String) (fs : FS),
        after_send true fence chat_files approval lines autoLint lintErrors
            acceptLintFix autoTest testErrors acceptTestFix addFilesMsg fs
          = ⟨fs, none, none, none, none, none, false⟩) := by
  refine ⟨fun t now h1 h2 => ?_, fun now => rfl, fun t now h => ?_,
    fun _ _ _ _ _ _ _ _ _ _ _ _ => rfl⟩
  · simp [keyboard_interrupt, h1, h2]
  · simp [keyboard_interrupt, h]

/-- Witness for C8: a second interrupt arriving immediately after the
first terminates the process. -/
theorem interrupt_semantics_witness :
    (1 : ℚ) ≠ 0 ∧ (1 : ℚ) - 1 < 2
    ∧ (keyboard_interrupt (some 1) 1).1 = true :=
  ⟨one_ne_zero, by rw [sub_self]; exact two_pos,
    interrupt_semantics.1 1 1 one_ne_zero (by rw [sub_self]; exact two_pos)⟩

/-- Claim C9: with edits applied, auto-lint enabled and lint errors
reported, the orchestrator reflects (the lint error text becomes the
reflection payload and control returns before the testing stage) only
when the user accepts the auto-fix offer; a decline proceeds to the
testing stage with no reflection set by the lint stage, exactly as the
lint-pass and no-edits cases do. -/
theorem lint_decline_to_test :
    ∀ (eps : List String) (e : String) (aLF aT : Bool) (tE : Option String)
      (aTF : Bool) (aM : Option String),
      eps ≠ [] →
      lint_test_stage eps true (some e) true aT tE aTF aM = (some e, some false, none, false)
      ∧ lint_test_stage eps true (some e) false aT tE aTF aM
          = ((test_stage eps aT tE aTF aM).1, some false, (test_stage eps aT tE aTF aM).2, true)
      ∧ lint_test_stage eps true none aLF aT tE aTF aM
          = ((test_stage eps aT tE aTF aM).1, some true, (test_stage eps aT tE aTF aM).2, true)
      ∧ lint_test_stage [] true (some e) aLF aT tE aTF aM
          = ((test_stage [] aT tE aTF aM).1, none, (test_stage [] aT tE aTF aM).2, true)
      ∧ (aT = false → aM = none →
          lint_test_stage eps true (some e) false aT tE aTF aM = (none, some false, none, true)) := by
  intro eps e aLF aT tE aTF aM h
  have hne : eps.isEmpty = false := by
    cases eps with
    | nil => exact absurd rfl h
    | cons a l => rfl
  refine ⟨?_, ?_, ?_, ?_, ?_⟩
  · simp [lint_test_stage, hne]
  · simp [lint_test_stage, hne]
  · simp [lint_test_stage, hne]
  · simp [lint_test_stage, List.isEmpty]
  · intro h1 h2
    subst h1; subst h2
    simp [lint_test_stage, test_stage, hne]

/-- Witness for C9: one applied edit, lint fails, user declines the
auto-fix offer, no test command and no file-mention notice: the turn
proceeds to the testing stage with no reflection message set. -/
theorem lint_decline_to_test_witness :
    (["app.py"] : List String) ≠ []
    ∧ lint_test_stage ["app.py"] true (some "lint failed") false false none false none
        = (none, some false, none, true) :=
  ⟨by decide,
    (lint_decline_to_test ["app.py"] "lint failed" false false none false none
      (by decide)).2.2.2.2 rfl rfl⟩

/-- Claim C7: on a length-limited stop, a model that cannot be primed
leaves the turn context-exhausted with no further send attempt; a model
that can be primed has the accumulated text become the content of the
trailing synthetic assistant message (replacing the last message when
it is already an assistant message, appending otherwise) and the send
is retried, once per length-stop occurrence. -/
theorem length_stop_retry :
    (∀ (msgs : List Msg) (acc : String) (rest : List SendEvent),
        send_loop false msgs (.lengthStop acc :: rest) = ⟨true, false, false, msgs, 1⟩)
    ∧ (∀ (msgs : List Msg) (acc : String) (rest : List SendEvent),
        send_loop true msgs (.lengthStop acc :: rest)
          = ⟨(send_loop true (prime_assistant msgs acc) rest).exhausted,
             (send_loop true (prime_assistant msgs acc) rest).interrupted,
             (send_loop true (prime_assistant msgs acc) rest).aborted,
             (send_loop true (prime_assistant msgs acc) rest).messages,
             (send_loop true (prime_assistant msgs acc) rest).attempts + 1⟩)
    ∧ (∀ (msgs : List Msg) (m : Msg) (acc : String),
        msgs.getLast? = some m → m.role = "assistant" →
        prime_assistant msgs acc = msgs.dropLast ++ [⟨"assistant", acc⟩])
    ∧ (∀ (msgs : List Msg) (m : Msg) (acc : String),
        msgs.getLast? = some m → m.role ≠ "assistant" →
        prime_assistant msgs acc = msgs ++ [⟨"assistant", acc⟩])
    ∧ (∀ (accs : List String) (msgs : List Msg),
        (send_loop true msgs (accs.map SendEvent.lengthStop ++ [SendEvent.ok])).attempts
            = accs.length + 1
        ∧ (send_loop true msgs (accs.map SendEvent.lengthStop ++ [SendEvent.ok])).exhausted
            = false
        ∧ (send_loop true msgs (accs.map SendEvent.lengthStop ++ [SendEvent.ok])).interrupted
            = false) := by
  refine ⟨fun msgs acc rest => rfl, fun msgs acc rest => rfl,
    fun msgs m acc h1 h2 => ?_, fun msgs m acc h1 h2 => ?_, fun accs => ?_⟩
  · simp [prime_assistant, h1, h2]
  · simp [prime_assistant, h1, h2]
  · induction accs with
    | nil => intro msgs; exact ⟨rfl, rfl, rfl⟩
    | cons a l ih =>
        intro msgs
        refine ⟨?_, ?_, ?_⟩
        · simpa [send_loop] using (ih (prime_assistant msgs a)).1
        · simpa [send_loop] using (ih (prime_assistant msgs a)).2.1
        · simpa [send_loop] using (ih (prime_assistant msgs a)).2.2

/-- Witness for C7: a trailing assistant message is replaced by the
synthetic assistant message carrying the accumulated text. -/
theorem length_stop_retry_witness :
    ([⟨"user", "hi"⟩, ⟨"assistant", "part"⟩] : List Msg).getLast?
        = some ⟨"assistant", "part"⟩
    ∧ prime_assistant [⟨"user", "hi"⟩, ⟨"assistant", "part"⟩] "part more"
        = [⟨"user", "hi"⟩, ⟨"assistant", "part more"⟩] :=
  ⟨rfl, length_stop_retry.2.2.1 [⟨"user", "hi"⟩, ⟨"assistant", "part"⟩]
    ⟨"assistant", "part"⟩ "part more" rfl rfl⟩

/-- Unfolding lemma for one step of the `choose_fence` scan. -/
theorem find_good_fence_cons (all : String) (f : String × String)
    (rest : List (String × String)) :
    find_good_fence all (f :: rest)
      = if str_in f.1 all = false ∧ str_in f.2 all = false then some f
        else find_good_fence all rest := by
  simp only [find_good_fence]
  by_cases h1 : str_in f.1 all <;> by_cases h2 : str_in f.2 all <;> simp [h1, h2]

/-- Claim C6: fence selection picks, from the fixed ordered candidate
list (triple-backtick, then `<source>`, `<code>`, `<pre>`,
`<codeblock>`, `<sourcecode>`), the first pair neither of whose
delimiters occurs anywhere in the concatenated in-chat file contents;
when every candidate occurs it falls back to the first candidate with
exactly one warning; and it always returns a candidate fence (never a
fatal failure). -/
theorem choose_fence_first_clean :
    ∀ contents : List String,
      choose_fence contents
        = (if str_in "```" (all_content contents) = false then (("```", "```"), 0)
           else if str_in "<source>" (all_content contents) = false
               ∧ str_in "</source>" (all_content contents) = false then
             (("<source>", "</source>"), 0)
           else if str_in "<code>" (all_content contents) = false
               ∧ str_in "</code>" (all_content contents) = false then
             (("<code>", "</code>"), 0)
           else if str_in "<pre>" (all_content contents) = false
               ∧ str_in "</pre>" (all_content contents) = false then
             (("<pre>", "</pre>"), 0)
           else if str_in "<codeblock>" (all_content contents) = false
               ∧ str_in "</codeblock>" (all_content contents) = false then
             (("<codeblock>", "</codeblock>"), 0)
           else if str_in "<sourcecode>" (all_content contents) = false
               ∧ str_in "</sourcecode>" (all_content contents) = false then
             (("<sourcecode>", "</sourcecode>"), 0)
           else (("```", "```"), 1))
      ∧ (choose_fence contents).2 ≤ 1
      ∧ (choose_fence contents).1 ∈ fences := by
  intro contents
  have main :
      choose_fence contents
        = (if str_in "```" (all_content contents) = false then (("```", "```"), 0)
           else if str_in "<source>" (all_content contents) = false
               ∧ str_in "</source>" (all_content contents) = false then
             (("<source>", "</source>"), 0)
           else if str_in "<code>" (all_content contents) = false
               ∧ str_in "</code>" (all_content contents) = false then
             (("<code>", "</code>"), 0)
           else if str_in "<pre>" (all_content contents) = false
               ∧ str_in "</pre>" (all_content contents) = false then
             (("<pre>", "</pre>"), 0)
           else if str_in "<codeblock>" (all_content contents) = false
               ∧ str_in "</codeblock>" (all_content contents) = false then
             (("<codeblock>", "</codeblock>"), 0)
           else if str_in "<sourcecode>" (all_content contents) = false
               ∧ str_in "</sourcecode>" (all_content contents) = false then
             (("<sourcecode>", "</sourcecode>"), 0)
           else (("```", "```"), 1)) := by
    unfold choose_fence fences
    rw [find_good_fence_cons, find_good_fence_cons, find_good_fence_cons,
      find_good_fence_cons, find_good_fence_cons, find_good_fence_cons]
    simp only [find_good_fence]
    split_ifs with h1 h2 h3 h4 h5 h6 <;> simp_all
  refine ⟨main, ?_, ?_⟩
  · rw [main]; split_ifs <;> decide
  · rw [main]; split_ifs <;> decide

/-- Claim C5: a fence opening with no usable header line (no preceding
line, or one that strips to empty), no remembered backtick mention, and
a number of in-chat files different from one fails the whole extraction
with the diagnostic naming the fence opening; and when `get_edits`
fails, no edit at all is applied to any file and the diagnostic text
becomes the reflection payload of the turn instead of aborting it. -/
theorem extraction_failure_diagnostic :
    (∀ (fence_open : String) (chat_files : List String) (prev : Option String),
        (prev = none ∨ ∃ q, prev = some q ∧ header_raw q = "") →
        chat_files.length ≠ 1 →
        resolve_fname fence_open chat_files none prev
          = .error ("No filename provided before " ++ fence_open ++ " in file listing"))
    ∧ (∀ (fence : String × String) (chat_files : List String) (lines : List String)
        (e : String) (approval : String → Bool)
        (autoLint : Bool) (lintErrors : Option String) (acceptLintFix : Bool)
        (autoTest : Bool) (testErrors : Option String) (acceptTestFix : Bool)
        (addFilesMsg : Option String) (fs : FS),
        get_edits fence chat_files lines = .error e →
        after_send false fence chat_files approval lines autoLint lintErrors
            acceptLintFix autoTest testErrors acceptTestFix addFilesMsg fs
          = ⟨fs, none, some e, some false, none, none, false⟩) := by
  constructor
  · intro fence_open chat_files prev hprev hn
    rcases hprev with h | ⟨q, hq, hraw⟩
    · subst h
      simp [resolve_fname, hn]
    · subst hq
      simp [resolve_fname, header_name, hraw, hn]
  · intro fence chat_files lines e approval aL lE aLF aT tE aTF aM fs h
    simp [after_send, h]

/-- Witness for C5: two files in chat, a fence with no header and no
mention: extraction fails with the named diagnostic, the file system is
untouched and the diagnostic becomes the reflection payload. -/
theorem extraction_failure_diagnostic_witness :
    get_edits ("```", "```") ["a.py", "b.py"] ["```"]
        = .error "No filename provided before ``` in file listing"
    ∧ after_send false ("```", "```") ["a.py", "b.py"] (fun _ => true) ["```"]
        true none true false none false none (fun _ => none)
      = ⟨(fun _ => none), none,
         some "No filename provided before ``` in file listing",
         some false, none, none, false⟩ :=
  ⟨rfl,
    extraction_failure_diagnostic.2 ("```", "```") ["a.py", "b.py"] ["```"]
      "No filename provided before ``` in file listing" (fun _ => true)
      true none true false none false none (fun _ => none) rfl⟩

/-- `reflect_loop` when the send leaves no reflection pending. -/
theorem reflect_loop_none (maxR : Nat) (oracle : Nat → Option String) (k count : Nat)
    (h : oracle k = none) :
    reflect_loop maxR oracle k count = ⟨count, [count], [], [], 1⟩ := by
  unfold reflect_loop
  rw [h]

/-- `reflect_loop` when a reflection is pending below the limit. -/
theorem reflect_loop_step (maxR : Nat) (oracle : Nat → Option String) (k count : Nat)
    (m : String) (h : oracle k = some m) (hlt : count < maxR) :
    reflect_loop maxR oracle k count
      = ⟨(reflect_loop maxR oracle (k + 1) (count + 1)).finalCount,
         count :: (reflect_loop maxR oracle (k + 1) (count + 1)).countTrace,
         m :: (reflect_loop maxR oracle (k + 1) (count + 1)).resent,
         (reflect_loop maxR oracle (k + 1) (count + 1)).errors,
         (reflect_loop maxR oracle (k + 1) (count + 1)).sends + 1⟩ := by
  conv_lhs => unfold reflect_loop
  rw [h]
  simp [hlt]

/-- `reflect_loop` when a reflection is pending at the limit. -/
theorem reflect_loop_stop (maxR : Nat) (oracle : Nat → Option String) (k count : Nat)
    (m : String) (h : oracle k = some m) (hge : ¬ count < maxR) :
    reflect_loop maxR oracle k count
      = ⟨count, [count], [],
         ["Only " ++ toString maxR ++ " reflections allowed, stopping."], 1⟩ := by
  unfold reflect_loop
  rw [h]
  simp [hge]

/-- Boundedness and monotonicity of the reflection counter along the loop. -/
theorem reflect_loop_bound (n : Nat) :
    ∀ (maxR : Nat) (oracle : Nat → Option String) (k count : Nat),
      maxR - count ≤ n → count ≤ maxR →
      (∀ c ∈ (reflect_loop maxR oracle k count).countTrace, c ≤ maxR)
      ∧ (reflect_loop maxR oracle k count).finalCount ≤ maxR
      ∧ count ≤ (reflect_loop maxR oracle k count).finalCount := by
  induction n with
  | zero =>
      intro maxR oracle k count hfuel hle
      have heq : count = maxR := by omega
      cases horc : oracle k with
      | none =>
          rw [reflect_loop_none maxR oracle k count horc]
          exact ⟨by intro c hc; simp at hc; omega, by simp; omega, by simp⟩
      | some m =>
          rw [reflect_loop_stop maxR oracle k count m horc (by omega)]
          exact ⟨by intro c hc; simp at hc; omega, by simp; omega, by simp⟩
  | succ n ih =>
      intro maxR oracle k count hfuel hle
      cases horc : oracle k with
      | none =>
          rw [reflect_loop_none maxR oracle k count horc]
          exact ⟨by intro c hc; simp at hc; omega, by simp; omega, by simp⟩
      | some m =>
          by_cases hlt : count < maxR
          · rw [reflect_loop_step maxR oracle k count m horc hlt]
            have hrec := ih maxR oracle (k + 1) (count + 1) (by omega) (by omega)
            refine ⟨?_, by simpa using hrec.2.1, by simp; omega⟩
            intro c hc
            simp at hc
            rcases hc with h | h
            · omega
            · exact hrec.1 c h
          · rw [reflect_loop_stop maxR oracle k count m horc hlt]
            exact ⟨by intro c hc; simp at hc; omega, by simp; omega, by simp⟩

/-- Claim C2: the reflection counter is reset to zero exactly by
`init_before_message` when a turn starts from direct user input, it
satisfies `count ≤ max` at every point of the loop and never decreases,
it is incremented only when a reflection message is pending with
`count < max` (at which point the reflected message is resent), and a
pending reflection at the limit stops the loop with the user-visible
"Only N reflections allowed, stopping." diagnostic instead of a silent
retry. -/
theorem reflection_counter_bounded :
    (∀ st : TurnState, init_before_message st = ⟨none, 0, none, none, none⟩)
    ∧ (∀ (maxR : Nat) (oracle : Nat → Option String) (k count : Nat),
        count ≤ maxR →
        (∀ c ∈ (reflect_loop maxR oracle k count).countTrace, c ≤ maxR)
        ∧ (reflect_loop maxR oracle k count).finalCount ≤ maxR
        ∧ count ≤ (reflect_loop maxR oracle k count).finalCount)
    ∧ (∀ (maxR : Nat) (oracle : Nat → Option String) (k count : Nat) (m : String),
        oracle k = some m → count < maxR →
        (reflect_loop maxR oracle k count).resent.head? = some m
        ∧ (reflect_loop maxR oracle k count).finalCount
            = (reflect_loop maxR oracle (k + 1) (count + 1)).finalCount)
    ∧ (∀ (maxR : Nat) (oracle : Nat → Option String) (k count : Nat) (m : String),
        oracle k = some m → ¬ count < maxR →
        reflect_loop maxR oracle k count
          = ⟨count, [count], [],
             ["Only " ++ toString maxR ++ " reflections allowed, stopping."], 1⟩)
    ∧ (∀ (maxR : Nat) (oracle : Nat → Option String) (k count : Nat),
        oracle k = none →
        reflect_loop maxR oracle k count = ⟨count, [count], [], [], 1⟩) := by
  refine ⟨fun st => rfl, ?_, ?_, reflect_loop_stop, reflect_loop_none⟩
  · intro maxR oracle k count hle
    exact reflect_loop_bound (maxR - count) maxR oracle k count (by omega) hle
  · intro maxR oracle k count m h hlt
    rw [reflect_loop_step maxR oracle k count m h hlt]
    exact ⟨rfl, rfl⟩

/-- Witness for C2: with the default limit of 3 reflections and a
reflection pending at the limit, the loop stops with the diagnostic. -/
theorem reflection_counter_bounded_witness :
    ((fun _ => some "fix it") : Nat → Option String) 0 = some "fix it"
    ∧ ¬ 3 < 3
    ∧ reflect_loop 3 (fun _ => some "fix it") 0 3
        = ⟨3, [3], [], ["Only 3 reflections allowed, stopping."], 1⟩ :=
  ⟨rfl, by decide,
    reflection_counter_bounded.2.2.2.1 3 (fun _ => some "fix it") 0 3 "fix it" rfl
      (by decide)⟩

/-- A hit in the `seen` cache of `prepare_to_edit` is a recorded gate answer. -/
theorem prep_lookup_mem (cache : List (String × Bool)) (p : String) (b : Bool)
    (h : prep_lookup cache p = some b) : (p, b) ∈ cache := by
  unfold prep_lookup at h
  cases hf : cache.find? (fun q => q.1 == p) with
  | none => rw [hf] at h; simp at h
  | some q =>
      rw [hf] at h
      simp at h
      have hmem := List.mem_of_find?_eq_some hf
      have hpred := List.find?_some hf
      simp at hpred
      subst hpred
      subst h
      simpa using hmem

/-- With a cache that faithfully records the gate's answers, the
`prepare_to_edit` loop keeps exactly the approved edits. -/
theorem prepare_to_edit_go_eq_filter (approval : String → Bool) :
    ∀ (edits : List Edit) (cache : List (String × Bool)),
      (∀ q ∈ cache, q.2 = approval q.1) →
      prepare_to_edit_go approval edits cache
        = edits.filter (fun e => approval (epath e)) := by
  intro edits
  induction edits with
  | nil => intro cache _; rfl
  | cons e rest ih =>
      intro cache hc
      unfold prepare_to_edit_go
      cases hl : prep_lookup cache (epath e) with
      | some b =>
          have hb : b = approval (epath e) := hc _ (prep_lookup_mem cache (epath e) b hl)
          subst hb
          cases hap : approval (epath e) with
          | true => simp [hap, List.filter_cons, ih cache hc]
          | false => simp [hap, List.filter_cons, ih cache hc]
      | none =>
          cases hap : approval (epath e) with
          | true =>
              have hc2 : ∀ q ∈ (epath e, true) :: cache, q.2 = approval q.1 := by
                intro q hq
                rcases List.mem_cons.mp hq with h | h
                · subst h; simp [hap]
                · exact hc q h
              simp [hap, List.filter_cons, ih _ hc2]
          | false =>
              have hc2 : ∀ q ∈ (epath e, false) :: cache, q.2 = approval q.1 := by
                intro q hq
                rcases List.mem_cons.mp hq with h | h
                · subst h; simp [hap]
                · exact hc q h
              simp [hap, List.filter_cons, ih _ hc2]

/-- `prepare_to_edit` is the gate-approval filter. -/
theorem prepare_to_edit_eq_filter (approval : String → Bool) (edits : List Edit) :
    prepare_to_edit approval edits = edits.filter (fun e => approval (epath e)) :=
  prepare_to_edit_go_eq_filter approval edits [] (by intro q hq; simp at hq)

/-- A path touched by none of the applied edits keeps its content. -/
theorem apply_edits_not_written :
    ∀ (edits : List Edit) (fs : FS) (p : String),
      p ∉ edits.map epath → apply_edits fs edits p = fs p := by
  intro edits
  induction edits with
  | nil => intro fs p _; rfl
  | cons e rest ih =>
      intro fs p hp
      simp at hp
      have hstep : apply_edits fs (e :: rest) = apply_edits (write_text fs (epath e) (elines e)) rest := rfl
      rw [hstep, ih _ p (by simpa using hp.2)]
      unfold write_text
      simp [hp.1]

/-- Claim C1: for every edit batch, the set of paths written to disk by
`update_files` is exactly the set of gate-approved candidate paths: an
edit is applied iff its path was approved, a refused path's file is
left untouched, and a refusal neither aborts the turn nor prevents the
remaining approved edits from being applied (the kept list is exactly
the approval filter, applied in full). -/
theorem update_files_gate_exact :
    ∀ (approval : String → Bool) (edits : List Edit) (fs : FS),
      (∀ p, p ∈ (update_files approval edits fs).2
          ↔ (p ∈ edits.map epath ∧ approval p = true))
      ∧ (∀ p, approval p = false → (update_files approval edits fs).1 p = fs p)
      ∧ (update_files approval edits fs).1
          = apply_edits fs (edits.filter (fun e => approval (epath e)))
      ∧ (update_files approval edits fs).2
          = (edits.filter (fun e => approval (epath e))).map epath := by
  intro approval edits fs
  have hkept : prepare_to_edit approval edits = edits.filter (fun e => approval (epath e)) :=
    prepare_to_edit_eq_filter approval edits
  refine ⟨?_, ?_, ?_, ?_⟩
  · intro p
    unfold update_files
    simp only [hkept, List.mem_map, List.mem_filter]
    constructor
    · rintro ⟨e, ⟨he, hap⟩, hpe⟩
      exact ⟨⟨e, he, hpe⟩, hpe ▸ hap⟩
    · rintro ⟨⟨e, he, hpe⟩, hap⟩
      exact ⟨e, ⟨he, hpe ▸ hap⟩, hpe⟩
  · intro p hp
    unfold update_files
    simp only [hkept]
    apply apply_edits_not_written
    intro hmem
    rcases List.mem_map.mp hmem with ⟨e, he, hpe⟩
    rw [← hpe] at hp
    rw [(List.mem_filter.mp he).2] at hp
    exact Bool.true_eq_false.mp hp
  · unfold update_files
    simp only [hkept]
  · unfold update_files
    simp only [hkept]

/-- Witness for C1: with `a.py` approved and `b.py` refused, `b.py` is
left untouched while the approved edit is applied. -/
theorem update_files_gate_exact_witness :
    ((fun p => p == "a.py") : String → Bool) "b.py" = false
    ∧ (update_files (fun p => p == "a.py")
        [("a.py", "block", ["x = 1"]), ("b.py", "block", ["y = 2"])]
        (fun _ => none)).1 "b.py" = none :=
  ⟨rfl,
    (update_files_gate_exact (fun p => p == "a.py")
      [("a.py", "block", ["x = 1"]), ("b.py", "block", ["y = 2"])]
      (fun _ => none)).2.1 "b.py" rfl⟩

/-- An element produced by `getLast?` belongs to the list. -/
theorem getLast?_mem {α : Type} {l : List α} {x : α} (h : l.getLast? = some x) : x ∈ l := by
  rcases List.mem_getLast?_eq_getLast (Option.mem_def.mpr h) with ⟨hne, heq⟩
  exact heq ▸ List.getLast_mem hne

/-- A remembered mention always names an in-chat file. -/
theorem last_mention_mem (chat_files : List String) (line : String) (m : String)
    (h : last_mention chat_files line = some m) : m ∈ chat_files := by
  unfold last_mention at h
  rcases List.mem_filterMap.mp (getLast?_mem h) with ⟨w, _, hw⟩
  unfold word_mention at hw
  exact (List.mem_filter.mp (getLast?_mem hw)).1

/-- Counterexample to claim C3 as stated: the response text quotes the
in-chat file `a.py` in backticks on an early conversational line, the
final fence opening has no usable header, yet extraction fails, because
the remembered mention was discarded when the intervening block closed
(`saw_fname = None` on block close).  Claim C3's precedence step (2)
("an earlier non-block line quoted an in-chat filename") asserts that
the mention would resolve this block's filename to `a.py`. -/
theorem filename_precedence_cex :
    last_mention ["a.py", "b.py"] "See `a.py` here" = some "a.py"
    ∧ header_raw "" = ""
    ∧ get_edits ("```", "```") ["a.py", "b.py"]
        ["See `a.py` here", "b.py", "```", "pass", "```", "", "```"]
      = .error "No filename provided before ``` in file listing" :=
  ⟨rfl, rfl, rfl⟩

/-- Claim C3 (amended): at a fence-opening line the filename is
resolved by this exact precedence, stopping at the first match: (1) the
immediately preceding line, stripped of whitespace, bold markers, a
trailing colon and backticks, if non-empty, is the filename, corrected
to its basename when the name is not an in-chat file but its basename
is (in-chat filenames being non-empty); (2) otherwise the in-chat
filename most recently quoted in backticks on a non-block line *since
the most recently closed block* is used (the remembered mention is
discarded whenever a block closes); (3) otherwise, with exactly one
file in chat, that file is the default. -/
theorem filename_precedence_amended :
    (∀ (fence_open : String) (chat_files : List String) (saw : Option String) (p : String),
        header_raw p ≠ "" → "" ∉ chat_files →
        resolve_fname fence_open chat_files saw (some p)
          = .ok ((if header_raw p ∉ chat_files ∧ base_name (header_raw p) ∈ chat_files
                  then base_name (header_raw p) else header_raw p), "block"))
    ∧ (∀ (fence_open : String) (chat_files : List String) (s : String) (prev : Option String),
        (prev = none ∨ ∃ q, prev = some q ∧ header_raw q = "") →
        resolve_fname fence_open chat_files (some s) prev = .ok (s, "saw"))
    ∧ (∀ (fence_open : String) (f : String) (prev : Option String),
        (prev = none ∨ ∃ q, prev = some q ∧ header_raw q = "") →
        resolve_fname fence_open [f] none prev = .ok (f, "chat"))
    ∧ (∀ (fence : String × String) (chat_files : List String) (st : ScanState)
        (prev : Option String) (line : String) (f : String),
        st.fname = some f → is_fence_line fence line = true →
        scan_line fence chat_files st prev line
          = .ok { st with
                  saw_fname := none
                  edits := st.edits ++ [(f, st.fname_source.getD "", st.new_lines)]
                  fname := none
                  fname_source := none
                  new_lines := [] })
    ∧ (∀ (chat_files : List String) (line : String) (m : String),
        last_mention chat_files line = some m → m ∈ chat_files)
    ∧ (∀ (fence : String × String) (chat_files : List String) (st : ScanState)
        (prev : Option String) (line : String),
        st.fname = none → is_fence_line fence line = false →
        scan_line fence chat_files st prev line
          = .ok { st with
                  saw_fname :=
                    match last_mention chat_files line with
                    | some m => some m
                    | none => st.saw_fname
                  output := st.output ++ [line] }) := by
  refine ⟨?_, ?_, ?_, ?_, last_mention_mem, ?_⟩
  · intro fence_open chat_files saw p h hcf
    simp only [resolve_fname, header_name]
    by_cases hc : header_raw p ∉ chat_files ∧ base_name (header_raw p) ∈ chat_files
    · have hcond : header_raw p ≠ "" ∧ header_raw p ∉ chat_files
          ∧ base_name (header_raw p) ∈ chat_files := ⟨h, hc.1, hc.2⟩
      have hbn : base_name (header_raw p) ≠ "" := fun he => hcf (he ▸ hc.2)
      rw [if_pos hcond, if_pos hc, if_pos hbn]
    · have hcond : ¬(header_raw p ≠ "" ∧ header_raw p ∉ chat_files
          ∧ base_name (header_raw p) ∈ chat_files) := fun hx => hc ⟨hx.2.1, hx.2.2⟩
      rw [if_neg hcond, if_neg hc, if_pos h]
  · intro fence_open chat_files s prev hprev
    rcases hprev with h | ⟨q, hq, hraw⟩
    · subst h; simp [resolve_fname]
    · subst hq; simp [resolve_fname, header_name, hraw]
  · intro fence_open f prev hprev
    rcases hprev with h | ⟨q, hq, hraw⟩
    · subst h; simp [resolve_fname]
    · subst hq; simp [resolve_fname, header_name, hraw]
  · intro fence chat_files st prev line f hf hfl
    simp [scan_line, hfl, hf]
  · intro fence chat_files st prev line hf hfl
    simp [scan_line, hfl, hf]

/-- Witness for C3 (amended): a bold header with an invented directory
naming an in-chat basename resolves, at the highest precedence, to that
basename, even though a mention is also remembered. -/
theorem filename_precedence_amended_witness :
    header_raw "**path/to/app.py:**" ≠ ""
    ∧ ("" : String) ∉ ["app.py"]
    ∧ resolve_fname "```" ["app.py"] (some "app.py") (some "**path/to/app.py:**")
        = .ok ("app.py", "block") :=
  ⟨by decide, by decide,
    (filename_precedence_amended.1 "```" ["app.py"] (some "app.py") "**path/to/app.py:**"
        (by decide) (by decide)).trans (by rfl)⟩

/-- The `seen` set after a deduplication pass is the input `seen`
followed by the paths of the kept edits. -/
theorem refine_pass_seen (src : String) :
    ∀ (edits : List Edit) (seen : List String),
      (refine_pass src edits seen).2 = seen ++ ((refine_pass src edits seen).1).map epath := by
  intro edits
  induction edits with
  | nil => intro seen; simp [refine_pass]
  | cons e rest ih =>
      intro seen
      by_cases h : esrc e = src ∧ epath e ∉ seen
      · simp only [refine_pass, if_pos h, List.map_cons]
        rw [ih (seen ++ [epath e])]
        simp
      · simp only [refine_pass, if_neg h]
        exact ih seen

/-- Edits kept by a pass carry the pass's source tag, come from the
input list and have a path outside the input `seen`. -/
theorem refine_pass_mem (src : String) :
    ∀ (edits : List Edit) (seen : List String) (e : Edit),
      e ∈ (refine_pass src edits seen).1 →
      esrc e = src ∧ e ∈ edits ∧ epath e ∉ seen := by
  intro edits
  induction edits with
  | nil => intro seen e h; simp [refine_pass] at h
  | cons e0 rest ih =>
      intro seen e h
      by_cases h0 : esrc e0 = src ∧ epath e0 ∉ seen
      · simp only [refine_pass, if_pos h0] at h
        rcases List.mem_cons.mp h with he | he
        · subst he
          exact ⟨h0.1, List.mem_cons_self _ _, h0.2⟩
        · have := ih (seen ++ [epath e0]) e he
          refine ⟨this.1, List.mem_cons_of_mem _ this.2.1, fun hc => this.2.2 ?_⟩
          exact List.mem_append_left _ hc
      · simp only [refine_pass, if_neg h0] at h
        have := ih seen e h
        exact ⟨this.1, List.mem_cons_of_mem _ this.2.1, this.2.2⟩

/-- A pass keeps a sublist of the input's edits with its source tag. -/
theorem refine_pass_sublist (src : String) :
    ∀ (edits : List Edit) (seen : List String),
      List.Sublist (refine_pass src edits seen).1 (edits.filter (fun e => esrc e == src)) := by
  intro edits
  induction edits with
  | nil => intro seen; simp [refine_pass]
  | cons e0 rest ih =>
      intro seen
      by_cases h0 : esrc e0 = src ∧ epath e0 ∉ seen
      · simp only [refine_pass, if_pos h0]
        rw [List.filter_cons_of_pos (by simp [h0.1])]
        exact List.Sublist.cons₂ e0 (ih (seen ++ [epath e0]))
      · simp only [refine_pass, if_neg h0]
        by_cases hs : esrc e0 = src
        · rw [List.filter_cons_of_pos (by simp [hs])]
          exact List.Sublist.cons e0 (ih seen)
        · rw [List.filter_cons_of_neg (by simp [hs])]
          exact ih seen

/-- Every input edit with the pass's source tag has its path in the
pass's final `seen` set. -/
theorem refine_pass_cover (src : String) :
    ∀ (edits : List Edit) (seen : List String) (e : Edit),
      e ∈ edits → esrc e = src → epath e ∈ (refine_pass src edits seen).2 := by
  intro edits
  induction edits with
  | nil => intro seen e h; simp at h
  | cons e0 rest ih =>
      intro seen e hmem hsrc
      have hsub : seen ⊆ (refine_pass src rest seen).2 := by
        rw [refine_pass_seen src rest seen]
        exact List.subset_append_left _ _
      rcases List.mem_cons.mp hmem with he | he
      · subst he
        by_cases h0 : esrc e = src ∧ epath e ∉ seen
        · simp only [refine_pass, if_pos h0]
          rw [refine_pass_seen src rest (seen ++ [epath e])]
          refine List.mem_append_left _ ?_
          simp
        · simp only [refine_pass, if_neg h0]
          have hseen : epath e ∈ seen := by
            by_contra hc
            exact h0 ⟨hsrc, hc⟩
          rw [refine_pass_seen src rest seen]
          exact List.mem_append_left _ hseen
      · by_cases h0 : esrc e0 = src ∧ epath e0 ∉ seen
        · simp only [refine_pass, if_pos h0]
          exact ih (seen ++ [epath e0]) e he hsrc
        · simp only [refine_pass, if_neg h0]
          exact ih seen e he hsrc

/-- A pass preserves `Nodup` of the `seen` set. -/
theorem refine_pass_nodup (src : String) :
    ∀ (edits : List Edit) (seen : List String),
      seen.Nodup → ((refine_pass src edits seen).2).Nodup := by
  intro edits
  induction edits with
  | nil => intro seen h; simpa [refine_pass] using h
  | cons e0 rest ih =>
      intro seen h
      by_cases h0 : esrc e0 = src ∧ epath e0 ∉ seen
      · simp only [refine_pass, if_pos h0]
        refine ih (seen ++ [epath e0]) ?_
        simp [List.nodup_append, h, h0.2]
      · simp only [refine_pass, if_neg h0]
        exact ih seen h

/-- A kept edit is the first edit of the input list having its path and
the pass's source tag (provided its path avoids the input `seen`, which
`refine_pass_mem` guarantees for kept edits). -/
theorem refine_pass_first (src : String) :
    ∀ (edits : List Edit) (seen : List String) (e : Edit),
      e ∈ (refine_pass src edits seen).1 →
      (edits.filter (fun x => epath x == epath e && esrc x == src)).head? = some e := by
  intro edits
  induction edits with
  | nil => intro seen e h; simp [refine_pass] at h
  | cons e0 rest ih =>
      intro seen e h
      by_cases h0 : esrc e0 = src ∧ epath e0 ∉ seen
      · simp only [refine_pass, if_pos h0] at h
        rcases List.mem_cons.mp h with he | he
        · subst he
          have hc : (epath e == epath e && esrc e == src) = true := by simp [h0.1]
          simp [List.filter_cons, hc, h0.1]
        · have hm := refine_pass_mem src rest (seen ++ [epath e0]) e he
          have hne : epath e0 ≠ epath e := by
            intro hc
            exact hm.2.2 (List.mem_append_right _ (by simp [hc]))
          have hc : (epath e0 == epath e && esrc e0 == src) = false := by
            simp [hne]
          simp only [List.filter_cons, hc, Bool.false_eq_true, if_false]
          exact ih (seen ++ [epath e0]) e he
      · simp only [refine_pass, if_neg h0] at h
        have hm := refine_pass_mem src rest seen e h
        have hc : (epath e0 == epath e && esrc e0 == src) = false := by
          rw [Bool.eq_false_iff]
          intro htrue
          simp only [Bool.and_eq_true, beq_iff_eq] at htrue
          obtain ⟨hpe, hse⟩ := htrue
          have hin : epath e0 ∈ seen := by
            by_contra hni
            exact h0 ⟨hse, hni⟩
          exact hm.2.2 (hpe ▸ hin)
        simp only [List.filter_cons, hc, Bool.false_eq_true, if_false]
        exact ih seen e h

/-- The final `seen` set of the three-pass deduplication is exactly the
path list of the returned edits. -/
theorem refine_edits_seen (edits : List Edit) :
    (refine_pass "chat" edits
        (refine_pass "saw" edits (refine_pass "block" edits []).2).2).2
      = (refine_edits edits).map epath := by
  simp only [refine_edits]
  rw [refine_pass_seen "chat", refine_pass_seen "saw", refine_pass_seen "block"]
  simp [List.map_append]

/-- Counterexample to claim C4 as stated: a response whose candidates
are, in order of first appearance, an edit to `a.py` (resolved from a
backtick mention, confidence "saw") and an edit to `b.py` (explicit
header, confidence "block").  The two paths are distinct, so the
claimed deduplication keeps both candidates and the claim predicts the
first-appearance order `a.py, b.py`; the code returns the block-tier
edit first. -/
theorem dedup_order_cex :
    get_edits ("```", "```") ["a.py", "b.py"]
        ["I will edit `a.py` soon", "", "```", "x = 1", "```", "b.py", "```", "y = 2", "```"]
      = .ok [("b.py", "block", ["y = 2"]), ("a.py", "saw", ["x = 1"])]
    ∧ ([("b.py", "block", ["y = 2"]), ("a.py", "saw", ["x = 1"])] : List Edit)
        ≠ [("a.py", "saw", ["x = 1"]), ("b.py", "block", ["y = 2"])]
    ∧ (["a.py", "b.py"] : List String).Nodup :=
  ⟨rfl, by decide, by decide⟩

/-- Claim C4 (amended): the deduplicated edit list contains exactly one
edit per path — the one whose filename source has the highest
confidence in the fixed order block > saw > chat, a first-seen
candidate beating any later candidate of the same confidence — and the
returned list is ordered by confidence tier (all block-sourced edits
first, then saw, then chat), candidates keeping their first-appearance
order within each tier. -/
theorem dedup_confidence_amended :
    ∀ edits : List Edit,
      (∀ e ∈ edits, esrc e = "block" ∨ esrc e = "saw" ∨ esrc e = "chat") →
      ((refine_edits edits).map epath).Nodup
      ∧ (∀ e ∈ refine_edits edits, e ∈ edits)
      ∧ (∀ p, p ∈ edits.map epath ↔ p ∈ (refine_edits edits).map epath)
      ∧ (∀ e ∈ refine_edits edits,
          (∀ e2 ∈ edits, epath e2 = epath e → src_rank (esrc e) ≤ src_rank (esrc e2))
          ∧ (edits.filter (fun x => epath x == epath e && esrc x == esrc e)).head?
              = some e)
      ∧ (∃ b s c, refine_edits edits = b ++ s ++ c
          ∧ List.Sublist b (edits.filter (fun e => esrc e == "block"))
          ∧ List.Sublist s (edits.filter (fun e => esrc e == "saw"))
          ∧ List.Sublist c (edits.filter (fun e => esrc e == "chat"))) := by
  intro edits hsrc
  have hmemB := refine_pass_mem "block" edits []
  have hmemS := refine_pass_mem "saw" edits (refine_pass "block" edits []).2
  have hmemC := refine_pass_mem "chat" edits
    (refine_pass "saw" edits (refine_pass "block" edits []).2).2
  have hB2 : (refine_pass "block" edits []).2
      = ((refine_pass "block" edits []).1).map epath := by
    rw [refine_pass_seen "block"]; simp
  have hS2 : (refine_pass "saw" edits (refine_pass "block" edits []).2).2
      = (refine_pass "block" edits []).2
        ++ ((refine_pass "saw" edits (refine_pass "block" edits []).2).1).map epath :=
    refine_pass_seen "saw" edits _
  have hsplit : ∀ e ∈ refine_edits edits,
      e ∈ (refine_pass "block" edits []).1
      ∨ e ∈ (refine_pass "saw" edits (refine_pass "block" edits []).2).1
      ∨ e ∈ (refine_pass "chat" edits
          (refine_pass "saw" edits (refine_pass "block" edits []).2).2).1 := by
    intro e he
    simp only [refine_edits, List.mem_append] at he
    tauto
  refine ⟨?_, ?_, ?_, ?_, ?_⟩
  · rw [← refine_edits_seen edits]
    exact refine_pass_nodup "chat" edits _
      (refine_pass_nodup "saw" edits _
        (refine_pass_nodup "block" edits [] List.nodup_nil))
  · intro e he
    rcases hsplit e he with h | h | h
    · exact (hmemB e h).2.1
    · exact (hmemS e h).2.1
    · exact (hmemC e h).2.1
  · intro p
    constructor
    · intro hp
      rcases List.mem_map.mp hp with ⟨e, he, hpe⟩
      rw [← refine_edits_seen edits]
      subst hpe
      rcases hsrc e he with h | h | h
      · have h1 : epath e ∈ (refine_pass "block" edits []).2 :=
          refine_pass_cover "block" edits [] e he h
        have h2 : epath e ∈ (refine_pass "saw" edits (refine_pass "block" edits []).2).2 := by
          rw [hS2]; exact List.mem_append_left _ h1
        rw [refine_pass_seen "chat"]
        exact List.mem_append_left _ h2
      · have h2 : epath e ∈ (refine_pass "saw" edits (refine_pass "block" edits []).2).2 :=
          refine_pass_cover "saw" edits _ e he h
        rw [refine_pass_seen "chat"]
        exact List.mem_append_left _ h2
      · exact refine_pass_cover "chat" edits _ e he h
    · intro hp
      rcases List.mem_map.mp hp with ⟨e, he, hpe⟩
      subst hpe
      refine List.mem_map_of_mem epath ?_
      rcases hsplit e he with h | h | h
      · exact (hmemB e h).2.1
      · exact (hmemS e h).2.1
      · exact (hmemC e h).2.1
  · intro e he
    rcases hsplit e he with h | h | h
    · have hm := hmemB e h
      constructor
      · intro e2 he2 hpe
        rw [hm.1]
        simp [src_rank]
      · have := refine_pass_first "block" edits [] e h
        rw [hm.1]
        exact this
    · have hm := hmemS e h
      have hnotB : epath e ∉ (refine_pass "block" edits []).2 := hm.2.2
      constructor
      · intro e2 he2 hpe
        rw [hm.1]
        rcases hsrc e2 he2 with h2 | h2 | h2
        · exfalso
          have := refine_pass_cover "block" edits [] e2 he2 h2
          rw [hpe] at this
          exact hnotB this
        · rw [h2]
        · rw [h2]; simp [src_rank]
      · have := refine_pass_first "saw" edits _ e h
        rw [hm.1]
        exact this
    · have hm := hmemC e h
      have hnotS : epath e ∉ (refine_pass "saw" edits (refine_pass "block" edits []).2).2 :=
        hm.2.2
      constructor
      · intro e2 he2 hpe
        rw [hm.1]
        rcases hsrc e2 he2 with h2 | h2 | h2
        · exfalso
          have h1 := refine_pass_cover "block" edits [] e2 he2 h2
          apply hnotS
          rw [hS2, ← hpe]
          exact List.mem_append_left _ h1
        · exfalso
          have h1 := refine_pass_cover "saw" edits (refine_pass "block" edits []).2 e2 he2 h2
          rw [hpe] at h1
          exact hnotS h1
        · rw [h2]
      · have := refine_pass_first "chat" edits _ e h
        rw [hm.1]
        exact this
  · exact ⟨_, _, _, rfl, refine_pass_sublist "block" edits [],
      refine_pass_sublist "saw" edits _, refine_pass_sublist "chat" edits _⟩

/-- Witness for C4 (amended): the deduplicated list of the
counterexample batch has pairwise-distinct paths. -/
theorem dedup_confidence_amended_witness :
    ((refine_edits [("a.py", "saw", ["x = 1"]), ("b.py", "block", ["y = 2"])]).map epath).Nodup :=
  (dedup_confidence_amended
    [("a.py", "saw", ["x = 1"]), ("b.py", "block", ["y = 2"])] (by decide)).1
